import Mathlib

/-!
Verification development for the battle-simulation scheduler of the
pokemonshowdown-ai repository (`src/py/environments/battle_env.py` and
`src/py/environments/utils/battle_pool.py`).

The Python code is shallowly embedded: each method becomes a pure Lean
function on an explicit state, raised exceptions become `Except.error`,
and `asyncio` suspension points are made explicit (an acquire that would
suspend is reported as `suspended`; the message buffer drained by
`BattleEnv.step` is passed in as a list).  Python `dict`s are modelled as
association lists with at most one entry per key (insertion appends a new
key at the end and updates an existing key in place, matching CPython
dict semantics); Python `set[str]` is modelled as a duplicate-free
`List String`.  Worker ids (`b"worker_0"`, ...) are modelled by their
index `Nat`; battle ids (`"battle_1"`, ...) keep their `String` form.
Float reward/state payloads are modelled over `Rat`: the scheduler only
copies these values (with a `0.0` default), it never computes with them.
-/

namespace PSAI

/-! ### Association-list model of Python `dict` -/

/-- Lookup `d[k]` returning `none` on a missing key (`dict.get`). -/
def dictGet {κ α : Type} [DecidableEq κ] (m : List (κ × α)) (k : κ) : Option α :=
  match m with
  | [] => none
  | (k₀, v) :: rest => if k₀ = k then some v else dictGet rest k

/-- Assignment `d[k] = v`: updates an existing key in place, otherwise
appends, as CPython dicts do. -/
def dictInsert {κ α : Type} [DecidableEq κ] (m : List (κ × α)) (k : κ) (v : α) :
    List (κ × α) :=
  if m.any (fun p => p.1 = k) then
    m.map (fun p => if p.1 = k then (k, v) else p)
  else m ++ [(k, v)]

/-- Removal `d.pop(k, None)`: removes the entry for `k` if present. -/
def dictErase {κ α : Type} [DecidableEq κ] (m : List (κ × α)) (k : κ) :
    List (κ × α) :=
  m.filter (fun p => decide (p.1 ≠ k))

/-! ### Wire protocol (`src/py/environments/utils/protocol.py`) -/

/-- Protocol `BattleReply`: result of a finished battle, sent worker → scheduler. -/
structure BattleReply where
  type : String
  id : String
  agents : List (String × String)
  winner : Option String
  truncated : Option Bool
  logPath : Option String
  err : Option String
deriving DecidableEq, Repr

/-- Protocol `AgentRequest` (tag `agent`): a continuing inference request.
The raw float32 state buffer accompanying it is carried separately. -/
structure AgentRequest where
  battle : String
  name : String
  choices : List String
  lastAction : Option String
  reward : Option Rat
deriving DecidableEq, Repr

/-- Protocol `AgentFinalRequest` (tag `agent_final`): agent termination notice,
no state buffer. -/
structure AgentFinalRequest where
  battle : String
  name : String
  action : Option String
  reward : Option Rat
  terminated : Option Bool
deriving DecidableEq, Repr

/-! ### Battle identifiers (`battle_pool.py`) -/

/-- Key type `BattleKey`: (worker id, battle id) pair identifying one battle. -/
structure BattleKey where
  worker_id : Nat
  battle_id : String
deriving DecidableEq, Repr

/-- Key type `AgentKey`: (battle, player) pair identifying one agent stream;
`player = "__env__"` is the reserved omniscient view. -/
structure AgentKey where
  battle : BattleKey
  player : String
deriving DecidableEq, Repr

/-! ### Worker-slot scheduler (`BattlePool._get_worker` / `_put_worker`)

`worker_load` is the dict `worker_id → load`; since its key set is fixed
at startup to `worker_0 .. worker_{n-1}` in insertion order, it is
modelled as the list of loads indexed by worker.  Loads are `Int` so the
lower bound `0 ≤ load` is a real statement.  `worker_futures` is the
deque of suspended acquirers, identified by opaque tokens. -/

structure PoolSched where
  worker_load : List Int
  worker_futures : List Nat
deriving DecidableEq, Repr

/-- Index of the first worker of minimal load: Python
`min(self.worker_load.keys(), key=lambda w: self.worker_load[w])`
(ties broken by dict iteration order; errors on an empty dict, hence
`Option`). -/
def minIdx : List Int → Option Nat
  | [] => none
  | l :: rest =>
    match minIdx rest with
    | none => some 0
    | some j => if l ≤ rest.getD j 0 then some 0 else some (j + 1)

/-- Outcome of one `_get_worker()` call. -/
inductive AcquireResult where
  /-- Returned immediately with a slot on worker `w`. -/
  | granted (w : Nat)
  /-- All workers at capacity: the caller was enqueued FIFO and suspends. -/
  | suspended
deriving DecidableEq, Repr

/-- Method `BattlePool._get_worker`, with `cap = self.config.per_worker` and
`waiter` the token standing for the future a suspending caller enqueues. -/
def get_worker (cap : Nat) (s : PoolSched) (waiter : Nat) :
    Except String (PoolSched × AcquireResult) :=
  match minIdx s.worker_load with
  | none => .error "ValueError: min() arg is an empty sequence"
  | some j =>
    if s.worker_load.getD j 0 < (cap : Int) then
      .ok ({ s with
              worker_load := s.worker_load.set j (s.worker_load.getD j 0 + 1) },
           .granted j)
    else
      .ok ({ s with worker_futures := s.worker_futures ++ [waiter] },
           .suspended)

/-- Method `BattlePool._put_worker`: if an acquirer waits, hand the freed slot
straight to the oldest one (`popleft().set_result(worker_id)`, no load
change); otherwise decrement the load, raising `ValueError` if the
worker is already free (and `KeyError` on an unknown worker id).
Returns the waiter token resumed, if any. -/
def put_worker (s : PoolSched) (w : Nat) :
    Except String (PoolSched × Option Nat) :=
  match s.worker_futures with
  | f :: rest => .ok ({ s with worker_futures := rest }, some f)
  | [] =>
    if w < s.worker_load.length then
      if s.worker_load.getD w 0 ≤ 0 then
        .error "ValueError: worker already free"
      else
        .ok ({ s with
                worker_load := s.worker_load.set w (s.worker_load.getD w 0 - 1) },
             none)
    else .error "KeyError"

/-- One scheduler operation: an `_get_worker` call (with the token its
future would get) or a `_put_worker(w)` call. -/
inductive PoolOp where
  | acquire (waiter : Nat)
  | release (w : Nat)
deriving DecidableEq, Repr

/-- Effect of one operation on the scheduler state.  A raised exception
leaves the state unchanged (both raises happen before any mutation). -/
def poolStep (cap : Nat) (s : PoolSched) : PoolOp → PoolSched
  | .acquire waiter =>
    match get_worker cap s waiter with
    | .ok (s', _) => s'
    | .error _ => s
  | .release w =>
    match put_worker s w with
    | .ok (s', _) => s'
    | .error _ => s

/-- Runs a sequence of scheduler operations. -/
def poolRun (cap : Nat) (s : PoolSched) : List PoolOp → PoolSched
  | [] => s
  | op :: ops => poolRun cap (poolStep cap s op) ops

/-- Initial pool state after `ready()`: every worker at load `0`, no
waiters (`BattlePool._add_worker` sets `worker_load[id] = 0`). -/
def initPool (workers : Nat) : PoolSched :=
  { worker_load := List.replicate workers 0, worker_futures := [] }

/-- Runs `n` back-to-back `_get_worker()` calls with no intervening release
(the acquisition pattern of queueing `n` battles): `none` as soon as one
call suspends (or errors), otherwise the resulting state. -/
def runAcquires (cap : Nat) : Nat → PoolSched → Option PoolSched
  | 0, s => some s
  | n + 1, s =>
    match get_worker cap s 0 with
    | .ok (s', .granted _) => runAcquires cap n s'
    | _ => none

/-! ### Pending-battle futures (`BattlePool.battle_futures`) -/

/-- State of an `asyncio.Future[BattleReply]` registered in
`battle_futures`. -/
inductive FutState where
  | pending
  | resolved (reply : BattleReply)
  | cancelled
deriving DecidableEq, Repr

/-- One iteration of the `BattlePool._pull_results` drain loop, applied
to a received `(worker_id, msg)` frame: release the worker slot, check
the message tag, then resolve the registered future.  `Except.error`
means the exception escapes the coroutine and the drain-loop task dies. -/
def pull_results_step (s : PoolSched) (futures : List (BattleKey × FutState))
    (worker : Nat) (reply : BattleReply) :
    Except String (PoolSched × List (BattleKey × FutState)) :=
  match put_worker s worker with
  | .error e => .error e
  | .ok (s', _) =>
    if reply.type ≠ "battle" then .error "AssertionError" else
    let key : BattleKey := ⟨worker, reply.id⟩
    match dictGet futures key with
    | none => .error "KeyError"
    | some .pending =>
        .ok (s', dictInsert futures key (.resolved reply))
    | some _ => .error "InvalidStateError"

/-! ### `BattlePool.await_battle` -/

/-- What awaiting the registered future does: it resolves with a reply
(set by the drain loop), `asyncio.wait_for` hits its 1-hour ceiling, or
the future/task is cancelled by `close()`/`reset()`. -/
inductive AwaitEvent where
  | resolves (reply : BattleReply)
  | timeout
  | cancelled
deriving DecidableEq, Repr

/-- Exception raised out of `await_battle`. -/
inductive AwaitError where
  /-- Lookup `self.battle_futures[key]` raised: no registered entry (e.g. a
  second await for the same key). -/
  | keyError (key : BattleKey)
  /-- Timeout `asyncio.TimeoutError` from `asyncio.wait_for`. -/
  | timeoutError
  /-- Cancellation `asyncio.CancelledError`. -/
  | cancelledError
  /-- Error `RuntimeError` tagged with the key and the
  in-band `err` field of the reply. -/
  | battleError (key : BattleKey) (err : String)
deriving DecidableEq, Repr

/-- Method `BattlePool.await_battle(key)`.  The future's behaviour when awaited
is read off the map entry.  The `finally` block pops the entry on every
exit path, including when the lookup itself raised `KeyError` (where the
pop is a no-op).  Returns the updated `battle_futures` map and the
result or escaped exception. -/
def await_battle (futures : List (BattleKey × AwaitEvent)) (key : BattleKey) :
    List (BattleKey × AwaitEvent) × Except AwaitError BattleReply :=
  match dictGet futures key with
  | none => (dictErase futures key, .error (.keyError key))
  | some ev =>
    let rest := dictErase futures key
    match ev with
    | .resolves reply =>
      match reply.err with
      | some e => (rest, .error (.battleError key e))
      | none => (rest, .ok reply)
    | .timeout => (rest, .error .timeoutError)
    | .cancelled => (rest, .error .cancelledError)

/-! ### BattleEnv data model (`src/py/environments/battle_env.py`) -/

/-- Config `RolloutOpponentConfig`. -/
structure RolloutOpponentConfig where
  name : String
  prob : Rat
  type : String
  model : Option String
deriving DecidableEq, Repr

/-- Config `EvalOpponentConfig`. -/
structure EvalOpponentConfig where
  name : String
  battles : Nat
  type : String
  model : Option String
deriving DecidableEq, Repr

/-- Record `ActiveBattle`: per-battle bookkeeping held in
`BattleEnv.active_battles`.  The `task : asyncio.Task[BattleReply]`
field is modelled by the reply the already-registered `await_battle`
task resolves with; `step` awaits it under a 10-second bound once the
battle completes (the wall-clock bound itself is real time, outside the
model). -/
structure ActiveBattle where
  outcome : BattleReply
  active_agents : List String
deriving DecidableEq, Repr

/-- State of `BattleEnv.queue_task` (the `_queue_battles` background
task): `absent` is Python `None`. -/
inductive QueueTask where
  | absent
  | pending
  | done
deriving DecidableEq, Repr

/-- Mutable state of a `BattleEnv` relevant to `reset`/`step`. -/
structure EnvState where
  active_battles : List (BattleKey × ActiveBattle)
  queue_task : QueueTask
deriving DecidableEq, Repr

/-- The fields of `BattleEnvConfig` that `step` reads.  `state_size` is
the generated `STATE_SIZE` constant (the `gen.shapes` module is
build-generated and not part of the repository source). -/
structure BattleEnvConfig where
  batch_limit : Int
  state_size : Nat
deriving DecidableEq, Repr

/-- Field `self._zero_state`: a zeroed state array of length `STATE_SIZE`. -/
def zero_state (cfg : BattleEnvConfig) : List Rat :=
  List.replicate cfg.state_size 0

/-- One entry of the per-agent `info` dict: either the
`{"choices": ..., "action": ...}` dict of a drained request (the choice
list is kept in raw form; `_translate_choices` turns it into an
equivalent 0/1 mask) or the `{"battle_result": ...}` dict stored under
the reserved `"__env__"` player. -/
inductive InfoEntry where
  | step (choices : List String) (action : Int)
  | result (battle_result : BattleReply)
deriving DecidableEq, Repr

/-- The five result dicts accumulated by `BattleEnv.step`. -/
structure StepResult where
  states : List (AgentKey × List Rat)
  rewards : List (AgentKey × Rat)
  terminateds : List (AgentKey × Bool)
  truncateds : List (AgentKey × Bool)
  infos : List (AgentKey × InfoEntry)
deriving DecidableEq, Repr

/-- The empty accumulator step starts from. -/
def StepResult.empty : StepResult := ⟨[], [], [], [], []⟩

/-- A message waiting on the agent socket, as returned by
`BattlePool.agent_recv` (frames already parsed; a `type:"agent"` frame
always carries a decoded state buffer, a `type:"agent_final"` frame
never does; any other tag raises inside `agent_recv` before the message
reaches `step`). -/
inductive AgentMsg where
  | agent (worker : Nat) (req : AgentRequest) (state : List Rat)
  | agent_final (worker : Nat) (req : AgentFinalRequest)
deriving DecidableEq, Repr

/-- The `AgentKey` under which `agent_recv` returns a message. -/
def AgentMsg.key : AgentMsg → AgentKey
  | .agent w req _ => ⟨⟨w, req.battle⟩, req.name⟩
  | .agent_final w req => ⟨⟨w, req.battle⟩, req.name⟩

/-- Whether the message is a continuing (`type:"agent"`) request —
these are the ones counted against `batch_limit`. -/
def AgentMsg.isContinuing : AgentMsg → Bool
  | .agent _ _ _ => true
  | .agent_final _ _ => false

/-- Exception escaping `BattleEnv.step` (all are fatal protocol
violations; the local result dicts are discarded with the stack frame). -/
inductive StepError where
  /-- Assert `all_reqs.get(key, None) is None` failed: duplicate in-flight
  request for one `AgentKey`. -/
  | duplicateRequest (key : AgentKey)
  /-- Error `KeyError` from `self.active_battles[key.battle]`. -/
  | unknownBattle (battle : BattleKey)
  /-- Assert `key.player in self.active_battles[key.battle].active_agents` failed. -/
  | inactivePlayer (key : AgentKey)
  /-- Error `KeyError` from `battle.active_agents.remove(key.player)`. -/
  | removeMissing (key : AgentKey)
deriving DecidableEq, Repr

/-- Processing of one drained message in the body of `step`'s while
loop (after the duplicate-request assert).  `aid` is the generated
`ACTION_IDS` name→id table.  Returns the updated env state, result
accumulator and `num_pending` counter. -/
def processMsg (cfg : BattleEnvConfig) (aid : String → Int) (s : EnvState)
    (acc : StepResult) (np : Nat) :
    AgentMsg → Except StepError (EnvState × StepResult × Nat)
  | .agent w req st =>
    let key : AgentKey := ⟨⟨w, req.battle⟩, req.name⟩
    match dictGet s.active_battles key.battle with
    | none => .error (.unknownBattle key.battle)
    | some b =>
      if req.name ∈ b.active_agents then
        .ok (s,
          { states := dictInsert acc.states key st
            rewards := dictInsert acc.rewards key (req.reward.getD 0)
            terminateds := dictInsert acc.terminateds key false
            truncateds := dictInsert acc.truncateds key false
            infos := dictInsert acc.infos key
              (.step req.choices
                (match req.lastAction with
                 | some a => aid a
                 | none => -1)) },
          np + 1)
      else .error (.inactivePlayer key)
  | .agent_final w req =>
    let key : AgentKey := ⟨⟨w, req.battle⟩, req.name⟩
    let t : Bool := req.terminated.getD false
    let acc' : StepResult :=
      { states := dictInsert acc.states key (zero_state cfg)
        rewards := dictInsert acc.rewards key (req.reward.getD 0)
        terminateds := dictInsert acc.terminateds key t
        truncateds := dictInsert acc.truncateds key (!t)
        infos := dictInsert acc.infos key
          (.step []
            (match req.action with
             | some a => aid a
             | none => -1)) }
    match dictGet s.active_battles key.battle with
    | none => .error (.unknownBattle key.battle)
    | some b =>
      if req.name ∈ b.active_agents then
        let agents' := b.active_agents.erase req.name
        if agents' = [] then
          .ok ({ s with
                  active_battles := dictErase s.active_battles key.battle },
               { acc' with
                  infos := dictInsert acc'.infos ⟨key.battle, "__env__"⟩
                    (.result b.outcome) },
               np)
        else
          .ok ({ s with
                  active_battles := dictInsert s.active_battles key.battle
                    { b with active_agents := agents' } },
               acc', np)
      else .error (.removeMissing key)

/-- The while loop of `BattleEnv.step`: drain ready agent messages while
the non-final count is under `batch_limit` (a non-positive limit
disables the cap), some battle is still active or queuing, and the poll
finds a message (`msgs` is the socket buffer; an empty buffer is a poll
miss).  Returns the final env state, the undrained buffer suffix, and
the accumulated result dicts. -/
def drainLoop (cfg : BattleEnvConfig) (aid : String → Int) :
    List AgentMsg → EnvState → Nat → List AgentKey → StepResult →
    Except StepError (EnvState × List AgentMsg × StepResult)
  | msgs, s, np, seen, acc =>
    if (cfg.batch_limit ≤ 0 ∨ (np : Int) < cfg.batch_limit)
        ∧ (s.active_battles ≠ [] ∨ s.queue_task = .pending) then
      match msgs with
      | [] => .ok (s, [], acc)
      | m :: rest =>
        if m.key ∈ seen then .error (.duplicateRequest m.key)
        else
          match processMsg cfg aid s acc np m with
          | .error e => .error e
          | .ok (s', acc', np') =>
            drainLoop cfg aid rest s' np' (seen ++ [m.key]) acc'
    else .ok (s, msgs, acc)

/-- Method `BattleEnv.step`.  The initial `agent_send` loop that forwards the
caller-supplied ranked actions only writes to the agent socket and does
not touch the env state, so it has no footprint here.  Returns the
final env state, the undrained buffer, the result dicts and the `done`
flag. -/
def stepEnv (cfg : BattleEnvConfig) (aid : String → Int) (s : EnvState)
    (msgs : List AgentMsg) :
    Except StepError (EnvState × List AgentMsg × StepResult × Bool) :=
  match drainLoop cfg aid msgs s 0 [] StepResult.empty with
  | .error e => .error e
  | .ok (s', rest, acc) =>
    if s'.active_battles = []
        ∧ (s'.queue_task = .absent ∨ s'.queue_task = .done) then
      .ok ({ s' with queue_task := .absent }, rest, acc, true)
    else
      .ok (s', rest, acc, false)

/-- Concrete fixture: the result a finished example battle reports. -/
def exampleReply : BattleReply := ⟨"battle", "b", [], none, none, none, none⟩

/-- Concrete fixture: one active battle `(0, "b")` hosting five players,
with the queuing task already completed. -/
def exampleEnv : EnvState :=
  ⟨[(⟨0, "b"⟩, ⟨exampleReply, ["p1", "p2", "p3", "p4", "p5"]⟩)],
    QueueTask.done⟩

/-- Concrete fixture: a ready continuing request from player `n` of
battle `(0, "b")`. -/
def exampleMsg (n : String) : AgentMsg :=
  .agent 0 (AgentRequest.mk "b" n [] none none) [0]

/-- Concrete fixture: battle `(0, "b")` with `"p1"` as its only
remaining active player. -/
def exampleEnvOne : EnvState :=
  ⟨[(⟨0, "b"⟩, ⟨exampleReply, ["p1"]⟩)], QueueTask.done⟩

/-- Concrete fixture: the result dicts after draining the final request
of `"p1"` in `exampleEnvOne` (zeroed state, terminal flags, per-agent
info entry plus the env-level outcome entry). -/
def exampleFinalAcc : StepResult :=
  ⟨[(⟨⟨0, "b"⟩, "p1"⟩, [0])],
   [(⟨⟨0, "b"⟩, "p1"⟩, 0)],
   [(⟨⟨0, "b"⟩, "p1"⟩, true)],
   [(⟨⟨0, "b"⟩, "p1"⟩, false)],
   [(⟨⟨0, "b"⟩, "p1"⟩, InfoEntry.step [] (-1)),
    (⟨⟨0, "b"⟩, "__env__"⟩, InfoEntry.result exampleReply)]⟩

/-- Method `BattleEnv.reset`: cancels every active-battle await task and the
previous queuing task, starts a fresh `_queue_battles` background task
for the given options, and returns the initial `(state, info)` pair. -/
def resetEnv (s : EnvState) (rollout_battles : Nat)
    (rollout_opponents : List RolloutOpponentConfig)
    (eval_opponents : List EvalOpponentConfig) :
    EnvState × (List (AgentKey × List Rat) × List (AgentKey × InfoEntry)) :=
  ({ active_battles := [], queue_task := .pending }, ([], []))

/-! ## Helper lemmas on the dict model -/

theorem dictGet_append_left {κ α : Type} [DecidableEq κ]
    {m m' : List (κ × α)} {k : κ} (h : dictGet m k = none) :
    dictGet (m ++ m') k = dictGet m' k := by
  induction m with
  | nil => simp
  | cons p rest ih =>
    rw [dictGet] at h
    rw [List.cons_append, dictGet]
    split at h
    · exact absurd h (by simp)
    · rw [if_neg (by assumption)]
      exact ih h

theorem dictGet_append_some {κ α : Type} [DecidableEq κ]
    {m m' : List (κ × α)} {k : κ} {v : α} (h : dictGet m k = some v) :
    dictGet (m ++ m') k = some v := by
  induction m with
  | nil => exact absurd h (by simp [dictGet])
  | cons p rest ih =>
    rw [dictGet] at h
    rw [List.cons_append, dictGet]
    split at h
    · rw [if_pos (by assumption)]
      exact h
    · rw [if_neg (by assumption)]
      exact ih h

theorem dictAny_eq_true_iff {κ α : Type} [DecidableEq κ]
    {m : List (κ × α)} {k : κ} :
    (m.any fun p => p.1 = k) = true ↔ dictGet m k ≠ none := by
  induction m with
  | nil => simp [dictGet]
  | cons p rest ih =>
    rw [List.any_cons, dictGet]
    by_cases hp : p.1 = k
    · simp [hp]
    · rw [if_neg hp, decide_eq_false hp, Bool.false_or]
      exact ih

theorem dictInsert_of_none {κ α : Type} [DecidableEq κ]
    {m : List (κ × α)} {k : κ} (v : α) (h : dictGet m k = none) :
    dictInsert m k v = m ++ [(k, v)] := by
  rw [dictInsert, if_neg]
  intro hany
  exact dictAny_eq_true_iff.mp hany h

theorem dictGet_map_update {κ α : Type} [DecidableEq κ]
    (m : List (κ × α)) (k : κ) (v : α) :
    dictGet (m.map fun p => if p.1 = k then (k, v) else p) k =
      (dictGet m k).map fun _ => v := by
  induction m with
  | nil => simp [dictGet]
  | cons p rest ih =>
    rw [List.map_cons]
    by_cases hp : p.1 = k
    · rw [if_pos hp, dictGet, if_pos rfl, dictGet, if_pos hp]
      rfl
    · rw [if_neg hp, dictGet, if_neg hp, dictGet, if_neg hp]
      exact ih

theorem dictGet_map_update_ne {κ α : Type} [DecidableEq κ]
    {m : List (κ × α)} {k k' : κ} (v : α) (h : k' ≠ k) :
    dictGet (m.map fun p => if p.1 = k then (k, v) else p) k' = dictGet m k' := by
  induction m with
  | nil => rfl
  | cons p rest ih =>
    rw [List.map_cons]
    by_cases hp : p.1 = k
    · rw [if_pos hp, dictGet, if_neg (Ne.symm h), dictGet,
        if_neg (by rw [hp]; exact Ne.symm h)]
      exact ih
    · rw [if_neg hp, dictGet, dictGet]
      by_cases hq : p.1 = k'
      · rw [if_pos hq, if_pos hq]
      · rw [if_neg hq, if_neg hq]
        exact ih

theorem dictGet_dictInsert_self {κ α : Type} [DecidableEq κ]
    (m : List (κ × α)) (k : κ) (v : α) :
    dictGet (dictInsert m k v) k = some v := by
  rw [dictInsert]
  split
  · rename_i hany
    have := dictAny_eq_true_iff.mp hany
    rw [dictGet_map_update]
    cases hm : dictGet m k with
    | none => exact absurd hm this
    | some v₀ => simp
  · rename_i hany
    have hnone : dictGet m k = none := by
      by_contra hne
      exact hany (dictAny_eq_true_iff.mpr hne)
    rw [dictGet_append_left hnone]
    simp [dictGet]

theorem dictGet_dictInsert_ne {κ α : Type} [DecidableEq κ]
    {m : List (κ × α)} {k k' : κ} (v : α) (h : k' ≠ k) :
    dictGet (dictInsert m k v) k' = dictGet m k' := by
  rw [dictInsert]
  split
  · exact dictGet_map_update_ne v h
  · cases hm : dictGet m k' with
    | some v₀ => exact dictGet_append_some hm
    | none =>
      rw [dictGet_append_left hm, dictGet, if_neg (Ne.symm h)]
      rfl

theorem dictGet_dictErase_self {κ α : Type} [DecidableEq κ]
    (m : List (κ × α)) (k : κ) :
    dictGet (dictErase m k) k = none := by
  induction m with
  | nil => rfl
  | cons p rest ih =>
    rw [dictErase, List.filter_cons]
    by_cases hp : p.1 = k
    · rw [if_neg (by simp [hp])]
      exact ih
    · rw [if_pos (by simp [hp]), dictGet, if_neg hp]
      exact ih

theorem fst_ne_of_mem_dictErase {κ α : Type} [DecidableEq κ]
    {m : List (κ × α)} {k : κ} {p : κ × α} (h : p ∈ dictErase m k) :
    p.1 ≠ k := by
  rw [dictErase] at h
  have := List.of_mem_filter h
  simpa using this

theorem dictGet_none_iff {κ α : Type} [DecidableEq κ]
    {m : List (κ × α)} {k : κ} :
    dictGet m k = none ↔ k ∉ m.map Prod.fst := by
  induction m with
  | nil => simp [dictGet]
  | cons p rest ih =>
    rw [dictGet, List.map_cons]
    by_cases hp : p.1 = k
    · simp [hp]
    · rw [if_neg hp]
      simp only [List.mem_cons, not_or, ih]
      constructor
      · exact fun h => ⟨fun hk => hp hk.symm, h⟩
      · exact fun h => h.2

theorem dictInsert_keys_of_some {κ α : Type} [DecidableEq κ]
    {m : List (κ × α)} {k : κ} (v : α) (h : dictGet m k ≠ none) :
    (dictInsert m k v).map Prod.fst = m.map Prod.fst := by
  rw [dictInsert, if_pos (dictAny_eq_true_iff.mpr h), List.map_map]
  apply List.map_congr_left
  intro p _
  by_cases hp : p.1 = k
  · simp [Function.comp, hp]
  · simp [Function.comp, hp]

theorem dictInsert_keys_of_none {κ α : Type} [DecidableEq κ]
    {m : List (κ × α)} {k : κ} (v : α) (h : dictGet m k = none) :
    (dictInsert m k v).map Prod.fst = m.map Prod.fst ++ [k] := by
  rw [dictInsert_of_none v h, List.map_append]
  rfl

theorem dictErase_keys {κ α : Type} [DecidableEq κ]
    (m : List (κ × α)) (k : κ) :
    (dictErase m k).map Prod.fst =
      (m.map Prod.fst).filter (fun x => decide (x ≠ k)) := by
  induction m with
  | nil => rfl
  | cons p rest ih =>
    rw [dictErase, List.filter_cons, List.map_cons, List.filter_cons]
    by_cases hp : p.1 = k
    · rw [if_neg (by simp [hp]), if_neg (by simp [hp])]
      exact ih
    · rw [if_pos (by simp [hp]), if_pos (by simp [hp]), List.map_cons]
      rw [dictErase] at ih
      rw [ih]

/-! ## C9 — `reset()` returns empty initial dicts -/

/-- C9: for all argument values, `reset()` returns a pair of two empty
dicts as the initial `(state, info)`; initial observations are only ever
delivered by later `step()` calls. -/
theorem reset_returns_empty_dicts (s : EnvState) (rollout_battles : Nat)
    (rollout_opponents : List RolloutOpponentConfig)
    (eval_opponents : List EvalOpponentConfig) :
    (resetEnv s rollout_battles rollout_opponents eval_opponents).2 = ([], []) :=
  rfl

/-! ## C2 — release of an already-free worker -/

/-- C2 counterexample: with one waiter queued (`worker_futures = [7]`)
and worker `0` at load `0`, `_put_worker 0` hands the slot to the waiter
and returns normally instead of raising — refuting the claim that a
zero-load release fails loudly regardless of the FIFO queue. -/
theorem put_worker_zero_load_queued_no_raise :
    put_worker ⟨[0], [7]⟩ 0 = .ok (⟨[0], []⟩, some 7) := rfl

/-- C2 amended: `_put_worker` on a worker with zero (or negative) load
raises exactly when no acquirer is waiting; if the FIFO queue is
non-empty the freed slot is handed to the oldest waiter with no load
check at all. -/
theorem put_worker_zero_load_spec (s : PoolSched) (w : Nat)
    (hw : w < s.worker_load.length) (h0 : s.worker_load.getD w 0 ≤ 0) :
    (s.worker_futures = [] →
      put_worker s w = .error "ValueError: worker already free")
    ∧ (∀ f rest, s.worker_futures = f :: rest →
      put_worker s w = .ok ({ s with worker_futures := rest }, some f)) := by
  constructor
  · intro hq
    simp only [put_worker, hq]
    rw [if_pos hw, if_pos h0]
  · intro f rest hq
    simp only [put_worker, hq]

/-- C2 witness: the amended behaviour at worker `0` of a 1-worker pool
with load `0` and no waiters. -/
theorem put_worker_zero_load_spec_witness :
    put_worker ⟨[0], []⟩ 0 = .error "ValueError: worker already free" :=
  (put_worker_zero_load_spec ⟨[0], []⟩ 0 (by decide) (by decide)).1 rfl

/-! ## Properties of `minIdx` (the `min(..., key=load)` call) -/

theorem minIdx_eq_none_iff {ls : List Int} : minIdx ls = none ↔ ls = [] := by
  cases ls with
  | nil => simp [minIdx]
  | cons l rest =>
    constructor
    · intro h
      rw [minIdx] at h
      split at h
      · exact absurd h (by simp)
      · split at h <;> exact absurd h (by simp)
    · intro h
      exact absurd h (by simp)

theorem minIdx_lt_length {ls : List Int} {j : Nat} (h : minIdx ls = some j) :
    j < ls.length := by
  induction ls generalizing j with
  | nil => exact absurd h (by simp [minIdx])
  | cons l rest ih =>
    rw [minIdx] at h
    split at h
    · injection h with h
      subst h
      simp
    · rename_i j' hr
      split at h <;> injection h with h <;> subst h
      · simp
      · have := ih hr
        rw [List.length_cons]
        omega

theorem minIdx_le {ls : List Int} {j : Nat} (h : minIdx ls = some j) :
    ∀ i, i < ls.length → ls.getD j 0 ≤ ls.getD i 0 := by
  induction ls generalizing j with
  | nil => intro i hi; exact absurd hi (by simp)
  | cons l rest ih =>
    rw [minIdx] at h
    split at h
    · rename_i hr
      have hrest : rest = [] := minIdx_eq_none_iff.mp hr
      subst hrest
      injection h with h
      subst h
      intro i hi
      have : i = 0 := by simpa using hi
      subst this
      exact le_refl _
    · rename_i j' hr
      split at h <;> injection h with h <;> subst h
      · rename_i hle
        intro i hi
        rw [List.getD_cons_zero]
        cases i with
        | zero => exact le_refl _
        | succ i' =>
          rw [List.getD_cons_succ]
          exact le_trans hle (ih hr i' (by simpa using hi))
      · rename_i hgt
        push_neg at hgt
        intro i hi
        rw [List.getD_cons_succ]
        cases i with
        | zero => exact le_of_lt hgt
        | succ i' =>
          rw [List.getD_cons_succ]
          exact ih hr i' (by simpa using hi)

theorem getD_mem_of_lt {ls : List Int} {j : Nat} (h : j < ls.length) :
    ls.getD j 0 ∈ ls := by
  rw [List.getD_eq_getElem ls 0 h]
  exact List.getElem_mem h

theorem sum_le_of_all_le {c : Int} :
    ∀ {ls : List Int}, (∀ l ∈ ls, c ≤ l) → (ls.length : Int) * c ≤ ls.sum := by
  intro ls
  induction ls with
  | nil => intro _; simp
  | cons l rest ih =>
    intro h
    have h1 : c ≤ l := h l (by simp)
    have h2 := ih fun x hx => h x (by simp [hx])
    rw [List.sum_cons, List.length_cons]
    push_cast
    linarith

theorem sum_set_succ {ls : List Int} {j : Nat} (h : j < ls.length) :
    (ls.set j (ls.getD j 0 + 1)).sum = ls.sum + 1 := by
  induction ls generalizing j with
  | nil => exact absurd h (by simp)
  | cons l rest ih =>
    cases j with
    | zero =>
      rw [List.set_cons_zero, List.getD_cons_zero, List.sum_cons, List.sum_cons]
      ring
    | succ j' =>
      rw [List.set_cons_succ, List.getD_cons_succ, List.sum_cons, List.sum_cons,
        ih (by simpa using h)]
      ring

/-! ## C5 — the load table stays within `[0, per_worker]` -/

theorem poolStep_load_bounds {cap : Nat} {s : PoolSched} (op : PoolOp)
    (hinv : ∀ l ∈ s.worker_load, 0 ≤ l ∧ l ≤ (cap : Int)) :
    ∀ l ∈ (poolStep cap s op).worker_load, 0 ≤ l ∧ l ≤ (cap : Int) := by
  cases op with
  | acquire waiter =>
    cases hm : minIdx s.worker_load with
    | none =>
      simp only [poolStep, get_worker, hm]
      exact hinv
    | some j =>
      have hj := minIdx_lt_length hm
      by_cases hcap : s.worker_load.getD j 0 < (cap : Int)
      · simp only [poolStep, get_worker, hm, if_pos hcap]
        intro l hl
        rcases List.mem_or_eq_of_mem_set hl with h | h
        · exact hinv l h
        · subst h
          have := hinv _ (getD_mem_of_lt hj)
          constructor <;> [linarith [this.1]; linarith]
      · simp only [poolStep, get_worker, hm, if_neg hcap]
        exact hinv
  | release w =>
    cases hq : s.worker_futures with
    | cons f rest =>
      simp only [poolStep, put_worker, hq]
      exact hinv
    | nil =>
      by_cases hw : w < s.worker_load.length
      · by_cases h0 : s.worker_load.getD w 0 ≤ 0
        · simp only [poolStep, put_worker, hq, if_pos hw, if_pos h0]
          exact hinv
        · simp only [poolStep, put_worker, hq, if_pos hw, if_neg h0]
          intro l hl
          rcases List.mem_or_eq_of_mem_set hl with h | h
          · exact hinv l h
          · subst h
            have := hinv _ (getD_mem_of_lt hw)
            constructor <;> [linarith [h0]; linarith [this.2]]
      · simp only [poolStep, put_worker, hq, if_neg hw]
        exact hinv

/-- C5: for every worker and after every sequence of `_get_worker` /
`_put_worker` operations from the all-zero initial load table, the
recorded load satisfies `0 ≤ load ≤ per_worker`. -/
theorem worker_load_invariant (cap workers : Nat) (ops : List PoolOp) :
    ∀ l ∈ (poolRun cap (initPool workers) ops).worker_load,
      0 ≤ l ∧ l ≤ (cap : Int) := by
  suffices h : ∀ (s : PoolSched), (∀ l ∈ s.worker_load, 0 ≤ l ∧ l ≤ (cap : Int)) →
      ∀ l ∈ (poolRun cap s ops).worker_load, 0 ≤ l ∧ l ≤ (cap : Int) by
    apply h
    intro l hl
    rw [initPool] at hl
    rw [List.eq_of_mem_replicate hl]
    constructor
    · exact le_refl 0
    · exact_mod_cast Nat.zero_le cap
  induction ops with
  | nil => intro s hs; simpa [poolRun] using hs
  | cons op rest ih =>
    intro s hs
    rw [poolRun]
    exact ih _ (poolStep_load_bounds op hs)

/-- C5 witness: after one acquire on a 1-worker pool of capacity 2, the
recorded load `1` is within bounds. -/
theorem worker_load_invariant_witness :
    0 ≤ (1 : Int) ∧ (1 : Int) ≤ ((2 : Nat) : Int) :=
  worker_load_invariant 2 1 [PoolOp.acquire 0] 1 (by decide)

/-! ## C7 — acquire grants a minimal-load worker while capacity remains -/

theorem runAcquires_complete (cap : Nat) : ∀ (n : Nat) (s : PoolSched),
    (∀ l ∈ s.worker_load, 0 ≤ l ∧ l ≤ (cap : Int)) →
    s.worker_load.sum + n ≤ (s.worker_load.length : Int) * cap →
    (runAcquires cap n s).isSome = true := by
  intro n
  induction n with
  | zero => intro s _ _; rfl
  | succ n ih =>
    intro s hinv hsum
    have hne : s.worker_load ≠ [] := by
      intro h
      rw [h] at hsum
      simp at hsum
      omega
    obtain ⟨j, hj⟩ : ∃ j, minIdx s.worker_load = some j := by
      cases hm : minIdx s.worker_load with
      | none => exact absurd (minIdx_eq_none_iff.mp hm) hne
      | some j => exact ⟨j, rfl⟩
    have hjlt := minIdx_lt_length hj
    have hmin : s.worker_load.getD j 0 < (cap : Int) := by
      by_contra hge
      push_neg at hge
      have hall : ∀ l ∈ s.worker_load, (cap : Int) ≤ l := by
        intro l hl
        obtain ⟨i, hi, rfl⟩ := List.mem_iff_getElem.mp hl
        have hle := minIdx_le hj i hi
        rw [List.getD_eq_getElem s.worker_load 0 hi] at hle
        linarith
      have := sum_le_of_all_le hall
      have hcast : ((n : Int) + 1) = ((n + 1 : Nat) : Int) := by push_cast; ring
      linarith [hsum]
    rw [runAcquires]
    simp only [get_worker, hj, if_pos hmin]
    apply ih
    · intro l hl
      rcases List.mem_or_eq_of_mem_set hl with h | h
      · exact hinv l h
      · subst h
        have := hinv _ (getD_mem_of_lt hjlt)
        constructor <;> [linarith [this.1]; linarith]
    · rw [sum_set_succ hjlt, List.length_set]
      push_cast at hsum ⊢
      linarith

/-- C7: whenever some worker has load strictly below `per_worker`,
`_get_worker` returns without suspending a worker whose load is minimal
over all workers and increments that worker's load by one; consequently
with `workers × per_worker ≥ N`, queueing `N` battles never blocks in
acquire. -/
theorem get_worker_grants_min_load (cap : Nat) :
    (∀ (s : PoolSched) (waiter : Nat),
      (∃ l ∈ s.worker_load, l < (cap : Int)) →
      ∃ j, j < s.worker_load.length ∧
        (∀ i, i < s.worker_load.length →
          s.worker_load.getD j 0 ≤ s.worker_load.getD i 0) ∧
        get_worker cap s waiter =
          .ok ({ s with worker_load :=
                   s.worker_load.set j (s.worker_load.getD j 0 + 1) },
               .granted j))
    ∧ (∀ workers n : Nat, n ≤ workers * cap →
        (runAcquires cap n (initPool workers)).isSome = true) := by
  constructor
  · rintro s waiter ⟨l, hl, hlt⟩
    have hne : s.worker_load ≠ [] := by
      intro h
      rw [h] at hl
      exact absurd hl (List.not_mem_nil l)
    obtain ⟨j, hj⟩ : ∃ j, minIdx s.worker_load = some j := by
      cases hm : minIdx s.worker_load with
      | none => exact absurd (minIdx_eq_none_iff.mp hm) hne
      | some j => exact ⟨j, rfl⟩
    refine ⟨j, minIdx_lt_length hj, minIdx_le hj, ?_⟩
    have hmin : s.worker_load.getD j 0 < (cap : Int) := by
      obtain ⟨i, hi, rfl⟩ := List.mem_iff_getElem.mp hl
      have hle := minIdx_le hj i hi
      rw [List.getD_eq_getElem s.worker_load 0 hi] at hle
      linarith
    simp only [get_worker, hj, if_pos hmin]
  · intro workers n hn
    apply runAcquires_complete
    · intro l hl
      rw [initPool] at hl
      rw [List.eq_of_mem_replicate hl]
      constructor
      · exact le_refl 0
      · exact_mod_cast Nat.zero_le cap
    · rw [initPool]
      simp only [List.sum_replicate, smul_zero, List.length_replicate, zero_add]
      exact_mod_cast hn

/-- C7 witness: a 1-worker pool of capacity 1 at load 0 grants worker 0
immediately, and 1 ≤ 1 × 1 acquires never block from the initial state. -/
theorem get_worker_grants_min_load_witness :
    (∃ j, j < (PoolSched.mk [0] []).worker_load.length ∧
      (∀ i, i < (PoolSched.mk [0] []).worker_load.length →
        (PoolSched.mk [0] []).worker_load.getD j 0 ≤
          (PoolSched.mk [0] []).worker_load.getD i 0) ∧
      get_worker 1 (PoolSched.mk [0] []) 5 =
        .ok ({ PoolSched.mk [0] [] with
                 worker_load := (PoolSched.mk [0] []).worker_load.set j
                   ((PoolSched.mk [0] []).worker_load.getD j 0 + 1) },
             .granted j)) ∧
    (runAcquires 1 1 (initPool 1)).isSome = true :=
  ⟨(get_worker_grants_min_load 1).1 (PoolSched.mk [0] []) 5
      ⟨0, by decide, by decide⟩,
    (get_worker_grants_min_load 1).2 1 1 (by decide)⟩

/-! ## C6 — `await_battle` cleans up on every exit path -/

/-- C6: `await_battle(key)` removes the pending entry for `key` on every
exit path; when the future resolves, it raises an error tagged with the
battle key iff the reply carries a non-null in-band `err` field; a
missing entry raises `KeyError`, so a second await for the same key
fails clearly rather than hanging. -/
theorem await_battle_cleanup (futures : List (BattleKey × AwaitEvent))
    (key : BattleKey) :
    (∀ p ∈ (await_battle futures key).1, p.1 ≠ key)
    ∧ (∀ reply, dictGet futures key = some (.resolves reply) →
        ((∃ e, (await_battle futures key).2 = .error (.battleError key e) ∧
            reply.err = some e)
          ↔ reply.err ≠ none))
    ∧ (dictGet futures key = none →
        (await_battle futures key).2 = .error (.keyError key))
    ∧ (await_battle (await_battle futures key).1 key).2 =
        .error (.keyError key) := by
  have h1 : (await_battle futures key).1 = dictErase futures key := by
    cases hg : dictGet futures key with
    | none => simp only [await_battle, hg]
    | some ev =>
      cases ev with
      | resolves reply =>
        cases herr : reply.err <;> simp only [await_battle, hg, herr]
      | timeout => simp only [await_battle, hg]
      | cancelled => simp only [await_battle, hg]
  refine ⟨?_, ?_, ?_, ?_⟩
  · rw [h1]
    intro p hp
    exact fst_ne_of_mem_dictErase hp
  · intro reply hg
    cases herr : reply.err with
    | none =>
      simp only [await_battle, hg, herr]
      constructor
      · rintro ⟨e, he, he'⟩
        exact absurd he (by simp)
      · intro hne
        exact absurd rfl hne
    | some e =>
      simp only [await_battle, hg, herr]
      constructor
      · intro _
        simp
      · intro _
        exact ⟨e, rfl, rfl⟩
  · intro hg
    simp only [await_battle, hg]
  · rw [h1]
    simp only [await_battle, dictGet_dictErase_self]

/-- C6 witness: a registered future that resolves to a reply with an
in-band error raises the key-tagged error, and the immediate second
await raises `KeyError`. -/
theorem await_battle_cleanup_witness :
    ((∃ e, (await_battle
        [(BattleKey.mk 0 "battle_1",
          AwaitEvent.resolves (BattleReply.mk "battle" "battle_1" [] none none
            none (some "boom")))]
        (BattleKey.mk 0 "battle_1")).2 =
          .error (.battleError (BattleKey.mk 0 "battle_1") e) ∧
        (BattleReply.mk "battle" "battle_1" [] none none none
          (some "boom")).err = some e)
      ↔ (BattleReply.mk "battle" "battle_1" [] none none none
          (some "boom")).err ≠ none)
    ∧ (await_battle (await_battle
        [(BattleKey.mk 0 "battle_1",
          AwaitEvent.resolves (BattleReply.mk "battle" "battle_1" [] none none
            none (some "boom")))]
        (BattleKey.mk 0 "battle_1")).1 (BattleKey.mk 0 "battle_1")).2 =
          .error (.keyError (BattleKey.mk 0 "battle_1")) :=
  ⟨(await_battle_cleanup _ (BattleKey.mk 0 "battle_1")).2.1 _ rfl,
    (await_battle_cleanup _ (BattleKey.mk 0 "battle_1")).2.2.2⟩

/-! ## C1 — a stale `BattleReply` crashes the drain loop -/

/-- C1 counterexample: a reply for an unregistered `(worker, battle)`
key makes the `_pull_results` iteration raise `KeyError` — the loop does
not tolerate the stale reply and dies, refuting the claim. -/
theorem pull_results_unknown_key_crashes :
    pull_results_step ⟨[1], []⟩ [] 0
      (BattleReply.mk "battle" "battle_1" [] none none none none) =
      .error "KeyError" := rfl

/-- C1 amended: for every pool state and reply whose key has no
registered pending future, the `_pull_results` iteration raises (the
future lookup raises `KeyError`, unless worker-slot release or the
message-tag assert raised first), killing the background drain task. -/
theorem pull_results_unknown_key_raises (s : PoolSched)
    (futures : List (BattleKey × FutState)) (worker : Nat)
    (reply : BattleReply)
    (h : dictGet futures ⟨worker, reply.id⟩ = none) :
    ∃ e, pull_results_step s futures worker reply = .error e := by
  cases hp : put_worker s worker with
  | error e =>
    refine ⟨e, ?_⟩
    simp only [pull_results_step, hp]
  | ok pr =>
    obtain ⟨s', w⟩ := pr
    by_cases ht : reply.type ≠ "battle"
    · refine ⟨"AssertionError", ?_⟩
      simp only [pull_results_step, hp, if_pos ht]
    · refine ⟨"KeyError", ?_⟩
      simp only [pull_results_step, hp, if_neg ht, h]

/-- C1 witness: the amended behaviour at the counterexample input. -/
theorem pull_results_unknown_key_raises_witness :
    ∃ e, pull_results_step ⟨[1], []⟩ [] 0
      (BattleReply.mk "battle" "battle_1" [] none none none none) =
      .error e :=
  pull_results_unknown_key_raises ⟨[1], []⟩ [] 0
    (BattleReply.mk "battle" "battle_1" [] none none none none) rfl

/-! ## C8 — the `done` flag -/

/-- C8: `step()` returns `done = true` iff at the end of the call no
battle is in active bookkeeping and the queuing task is absent or has
completed. -/
theorem step_done_iff (cfg : BattleEnvConfig) (aid : String → Int)
    (s : EnvState) (msgs : List AgentMsg) (s' : EnvState)
    (rest : List AgentMsg) (acc : StepResult) (d : Bool)
    (h : stepEnv cfg aid s msgs = .ok (s', rest, acc, d)) :
    d = true ↔ (s'.active_battles = [] ∧
      (s'.queue_task = .absent ∨ s'.queue_task = .done)) := by
  rw [stepEnv] at h
  cases hd : drainLoop cfg aid msgs s 0 [] StepResult.empty with
  | error e =>
    rw [hd] at h
    exact absurd h (by simp)
  | ok r =>
    obtain ⟨s₁, rest₁, acc₁⟩ := r
    rw [hd] at h
    dsimp only at h
    by_cases hc : s₁.active_battles = [] ∧
        (s₁.queue_task = .absent ∨ s₁.queue_task = .done)
    · rw [if_pos hc] at h
      simp only [Except.ok.injEq, Prod.mk.injEq] at h
      obtain ⟨h1, -, -, h4⟩ := h
      subst h1
      subst h4
      simp [hc.1]
    · rw [if_neg hc] at h
      simp only [Except.ok.injEq, Prod.mk.injEq] at h
      obtain ⟨h1, -, -, h4⟩ := h
      subst h1
      subst h4
      simp only [Bool.false_eq_true, false_iff]
      exact hc

/-- C8 witness: an idle env (no battles, queue task completed) reports
`done = true` from an empty drain. -/
theorem step_done_iff_witness :
    true = true ↔ ((EnvState.mk [] QueueTask.absent).active_battles = [] ∧
      ((EnvState.mk [] QueueTask.absent).queue_task = .absent ∨
        (EnvState.mk [] QueueTask.absent).queue_task = .done)) :=
  step_done_iff ⟨1, 1⟩ (fun _ => -1) ⟨[], QueueTask.done⟩ []
    (EnvState.mk [] QueueTask.absent) [] StepResult.empty true rfl

/-! ## C3 — `batch_limit` caps continuing requests only -/

theorem processMsg_np (cfg : BattleEnvConfig) (aid : String → Int)
    {s : EnvState} {acc : StepResult} {np : Nat} {m : AgentMsg}
    {s' : EnvState} {acc' : StepResult} {np' : Nat}
    (h : processMsg cfg aid s acc np m = .ok (s', acc', np')) :
    np' = if m.isContinuing then np + 1 else np := by
  cases m with
  | agent w req st =>
    simp only [processMsg] at h
    split at h
    · exact absurd h (by simp)
    · split at h
      · simp only [Except.ok.injEq, Prod.mk.injEq] at h
        rw [AgentMsg.isContinuing, if_pos rfl, ← h.2.2]
      · exact absurd h (by simp)
  | agent_final w req =>
    simp only [processMsg] at h
    split at h
    · exact absurd h (by simp)
    · split at h
      · split at h
        · simp only [Except.ok.injEq, Prod.mk.injEq] at h
          rw [AgentMsg.isContinuing, if_neg (by simp), ← h.2.2]
        · simp only [Except.ok.injEq, Prod.mk.injEq] at h
          rw [AgentMsg.isContinuing, if_neg (by simp), ← h.2.2]
      · exact absurd h (by simp)

theorem drainLoop_batch (cfg : BattleEnvConfig) (aid : String → Int)
    (hL : 0 < cfg.batch_limit) :
    ∀ (msgs : List AgentMsg) (s : EnvState) (np : Nat) (seen : List AgentKey)
      (acc : StepResult) (s' : EnvState) (rest : List AgentMsg)
      (acc' : StepResult),
      drainLoop cfg aid msgs s np seen acc = .ok (s', rest, acc') →
      (np : Int) ≤ cfg.batch_limit →
      ∃ drained, msgs = drained ++ rest ∧
        (np : Int) + (drained.filter AgentMsg.isContinuing).length ≤
          cfg.batch_limit := by
  intro msgs
  induction msgs with
  | nil =>
    intro s np seen acc s' rest acc' h hnp
    rw [drainLoop] at h
    split at h <;>
      simp only [Except.ok.injEq, Prod.mk.injEq] at h <;>
      exact ⟨[], by rw [← h.2.1]; rfl, by simpa using hnp⟩
  | cons m restm ih =>
    intro s np seen acc s' rest acc' h hnp
    rw [drainLoop] at h
    split at h
    · rename_i hcond
      split at h
      · exact absurd h (by simp)
      · split at h
        · exact absurd h (by simp)
        · rename_i s₁ acc₁ np₁ hpm
          have hnp₁ := processMsg_np cfg aid hpm
          have hlt : (np : Int) < cfg.batch_limit := by
            rcases hcond.1 with h' | h'
            · omega
            · exact h'
          have hnp₁le : (np₁ : Int) ≤ cfg.batch_limit := by
            rw [hnp₁]
            split <;> push_cast <;> omega
          obtain ⟨dr, hdr, hcount⟩ := ih _ _ _ _ _ _ _ h hnp₁le
          refine ⟨m :: dr, by rw [List.cons_append, hdr], ?_⟩
          rw [List.filter_cons]
          by_cases hc : m.isContinuing
          · rw [if_pos (by simp [hc]), List.length_cons]
            rw [hnp₁, if_pos hc] at hcount
            push_cast at hcount ⊢
            omega
          · rw [if_neg (by simp [hc])]
            rw [hnp₁, if_neg hc] at hcount
            exact hcount
    · simp only [Except.ok.injEq, Prod.mk.injEq] at h
      exact ⟨[], by rw [← h.2.1]; rfl, by simpa using hnp⟩

/-- C3: with `batch_limit = L > 0`, one `step()` call drains at most `L`
continuing (`type:"agent"`) requests; final (`type:"agent_final"`)
requests are not counted against the cap. -/
theorem step_batch_limit (cfg : BattleEnvConfig) (aid : String → Int)
    (s : EnvState) (msgs : List AgentMsg) (s' : EnvState)
    (rest : List AgentMsg) (acc : StepResult) (d : Bool)
    (hL : 0 < cfg.batch_limit)
    (h : stepEnv cfg aid s msgs = .ok (s', rest, acc, d)) :
    ∃ drained, msgs = drained ++ rest ∧
      ((drained.filter AgentMsg.isContinuing).length : Int) ≤
        cfg.batch_limit := by
  rw [stepEnv] at h
  cases hd : drainLoop cfg aid msgs s 0 [] StepResult.empty with
  | error e =>
    rw [hd] at h
    exact absurd h (by simp)
  | ok r =>
    obtain ⟨s₁, rest₁, acc₁⟩ := r
    rw [hd] at h
    dsimp only at h
    have hrest : rest₁ = rest := by
      split at h <;>
        simp only [Except.ok.injEq, Prod.mk.injEq] at h <;>
        exact h.2.1
    obtain ⟨dr, hdr, hcount⟩ :=
      drainLoop_batch cfg aid hL msgs s 0 [] StepResult.empty s₁ rest₁ acc₁ hd
        (by simpa using le_of_lt hL)
    subst hrest
    exact ⟨dr, hdr, by simpa using hcount⟩

/-- C3 witness: `batch_limit = 2` with five simultaneously ready
continuing requests — one `step()` call drains exactly the first two
and leaves the other three in the buffer. -/
theorem step_batch_limit_witness :
    ∃ drained,
      [exampleMsg "p1", exampleMsg "p2", exampleMsg "p3", exampleMsg "p4",
        exampleMsg "p5"] =
        drained ++ [exampleMsg "p3", exampleMsg "p4", exampleMsg "p5"] ∧
      ((drained.filter AgentMsg.isContinuing).length : Int) ≤
        (BattleEnvConfig.mk 2 1).batch_limit :=
  step_batch_limit (BattleEnvConfig.mk 2 1) (fun _ => -1) exampleEnv
    [exampleMsg "p1", exampleMsg "p2", exampleMsg "p3", exampleMsg "p4",
      exampleMsg "p5"]
    exampleEnv
    [exampleMsg "p3", exampleMsg "p4", exampleMsg "p5"]
    (StepResult.mk
      [(⟨⟨0, "b"⟩, "p1"⟩, [0]), (⟨⟨0, "b"⟩, "p2"⟩, [0])]
      [(⟨⟨0, "b"⟩, "p1"⟩, 0), (⟨⟨0, "b"⟩, "p2"⟩, 0)]
      [(⟨⟨0, "b"⟩, "p1"⟩, false), (⟨⟨0, "b"⟩, "p2"⟩, false)]
      [(⟨⟨0, "b"⟩, "p1"⟩, false), (⟨⟨0, "b"⟩, "p2"⟩, false)]
      [(⟨⟨0, "b"⟩, "p1"⟩, InfoEntry.step [] (-1)),
       (⟨⟨0, "b"⟩, "p2"⟩, InfoEntry.step [] (-1))])
    false (by decide) rfl

/-! ## C4 — semantics of each drained message -/

/-- C4: a drained continuing request yields an entry carrying the
decoded state with `terminated = truncated = false` (env state
untouched); a drained final request yields a zeroed-state entry with
`truncated = ¬terminated`, removes the player from the battle's active
set, and — exactly when the set becomes empty — removes the battle from
active bookkeeping and records the single `"__env__"` info entry
holding the raw battle outcome. -/
theorem processMsg_entry_semantics (cfg : BattleEnvConfig)
    (aid : String → Int) (s : EnvState) (acc : StepResult) (np : Nat) :
    (∀ w req st s' acc' np',
      processMsg cfg aid s acc np (.agent w req st) = .ok (s', acc', np') →
        dictGet acc'.states ⟨⟨w, req.battle⟩, req.name⟩ = some st ∧
        dictGet acc'.terminateds ⟨⟨w, req.battle⟩, req.name⟩ = some false ∧
        dictGet acc'.truncateds ⟨⟨w, req.battle⟩, req.name⟩ = some false ∧
        s' = s)
    ∧ (∀ w req s' acc' np',
      processMsg cfg aid s acc np (.agent_final w req) = .ok (s', acc', np') →
      req.name ≠ "__env__" →
        dictGet acc'.states ⟨⟨w, req.battle⟩, req.name⟩ =
          some (zero_state cfg) ∧
        dictGet acc'.terminateds ⟨⟨w, req.battle⟩, req.name⟩ =
          some (req.terminated.getD false) ∧
        dictGet acc'.truncateds ⟨⟨w, req.battle⟩, req.name⟩ =
          some (!req.terminated.getD false) ∧
        ∃ b, dictGet s.active_battles ⟨w, req.battle⟩ = some b ∧
          req.name ∈ b.active_agents ∧
          (if b.active_agents.erase req.name = [] then
            dictGet s'.active_battles ⟨w, req.battle⟩ = none ∧
            dictGet acc'.infos ⟨⟨w, req.battle⟩, "__env__"⟩ =
              some (.result b.outcome)
          else
            dictGet s'.active_battles ⟨w, req.battle⟩ =
              some ⟨b.outcome, b.active_agents.erase req.name⟩ ∧
            dictGet acc'.infos ⟨⟨w, req.battle⟩, "__env__"⟩ =
              dictGet acc.infos ⟨⟨w, req.battle⟩, "__env__"⟩)) := by
  constructor
  · intro w req st s' acc' np' h
    simp only [processMsg] at h
    split at h
    · exact absurd h (by simp)
    · split at h
      · simp only [Except.ok.injEq, Prod.mk.injEq] at h
        obtain ⟨h1, h2, -⟩ := h
        subst h1
        rw [← h2]
        refine ⟨?_, ?_, ?_, rfl⟩ <;>
          exact dictGet_dictInsert_self _ _ _
      · exact absurd h (by simp)
  · intro w req s' acc' np' h hname
    simp only [processMsg] at h
    split at h
    · exact absurd h (by simp)
    · rename_i b hb
      split at h
      · rename_i hmem
        have hkeys : AgentKey.mk ⟨w, req.battle⟩ "__env__" ≠
            AgentKey.mk ⟨w, req.battle⟩ req.name := by
          intro hk
          exact hname (congrArg AgentKey.player hk).symm
        split at h
        · rename_i hempty
          simp only [Except.ok.injEq, Prod.mk.injEq] at h
          obtain ⟨h1, h2, -⟩ := h
          subst h1
          rw [← h2]
          refine ⟨?_, ?_, ?_, b, hb, hmem, ?_⟩
          · rw [dictGet_dictInsert_self]
          · rw [dictGet_dictInsert_self]
          · rw [dictGet_dictInsert_self]
          · rw [if_pos hempty]
            constructor
            · exact dictGet_dictErase_self _ _
            · rw [dictGet_dictInsert_self]
        · rename_i hne
          simp only [Except.ok.injEq, Prod.mk.injEq] at h
          obtain ⟨h1, h2, -⟩ := h
          subst h1
          rw [← h2]
          refine ⟨?_, ?_, ?_, b, hb, hmem, ?_⟩
          · rw [dictGet_dictInsert_self]
          · rw [dictGet_dictInsert_self]
          · rw [dictGet_dictInsert_self]
          · rw [if_neg hne]
            constructor
            · rw [dictGet_dictInsert_self]
            · rw [dictGet_dictInsert_ne _ hkeys]
      · exact absurd h (by simp)

/-- C4 witness: the final request of the last active player of battle
`(0, "b")` (with `terminated = true`): zeroed state entry,
`truncated = ¬terminated`, battle removed and the env-level info entry
recorded. -/
theorem processMsg_entry_semantics_witness :
    dictGet exampleFinalAcc.states ⟨⟨0, "b"⟩, "p1"⟩ =
      some (zero_state (BattleEnvConfig.mk 2 1)) ∧
    dictGet exampleFinalAcc.terminateds ⟨⟨0, "b"⟩, "p1"⟩ =
      some ((some true : Option Bool).getD false) ∧
    dictGet exampleFinalAcc.truncateds ⟨⟨0, "b"⟩, "p1"⟩ =
      some (!(some true : Option Bool).getD false) ∧
    ∃ b, dictGet exampleEnvOne.active_battles ⟨0, "b"⟩ = some b ∧
      "p1" ∈ b.active_agents ∧
      (if b.active_agents.erase "p1" = [] then
        dictGet (EnvState.mk [] QueueTask.done).active_battles ⟨0, "b"⟩ =
          none ∧
        dictGet exampleFinalAcc.infos ⟨⟨0, "b"⟩, "__env__"⟩ =
          some (.result b.outcome)
      else
        dictGet (EnvState.mk [] QueueTask.done).active_battles ⟨0, "b"⟩ =
          some ⟨b.outcome, b.active_agents.erase "p1"⟩ ∧
        dictGet exampleFinalAcc.infos ⟨⟨0, "b"⟩, "__env__"⟩ =
          dictGet StepResult.empty.infos ⟨⟨0, "b"⟩, "__env__"⟩) :=
  (processMsg_entry_semantics (BattleEnvConfig.mk 2 1) (fun _ => -1)
      exampleEnvOne StepResult.empty 0).2
    0 (AgentFinalRequest.mk "b" "p1" none none (some true))
    (EnvState.mk [] QueueTask.done) exampleFinalAcc 0 rfl (by decide)

/-! ## C10 — key alignment of the five result dicts -/

theorem perm_snoc_middle {α : Type} (a c : List α) (k : α) :
    List.Perm ((a ++ c) ++ [k]) ((a ++ [k]) ++ c) := by
  rw [List.append_assoc, List.append_assoc]
  exact List.Perm.append_left a List.perm_append_comm

theorem filter_ne_eq_erase {α : Type} [DecidableEq α] (l : List α) (k : α)
    (h : l.Nodup) : l.filter (fun x => decide (x ≠ k)) = l.erase k := by
  rw [h.erase_eq_filter]
  apply List.filter_congr
  intro x _
  by_cases hxk : x = k <;> simp [hxk]

theorem mem_keys_of_dictGet_some {κ α : Type} [DecidableEq κ]
    {m : List (κ × α)} {k : κ} {v : α} (h : dictGet m k = some v) :
    k ∈ m.map Prod.fst := by
  by_contra hmem
  rw [← dictGet_none_iff] at hmem
  rw [h] at hmem
  exact absurd hmem (by simp)

theorem processMsg_keys (cfg : BattleEnvConfig) (aid : String → Int)
    {s : EnvState} {acc : StepResult} {np : Nat} {m : AgentMsg}
    {s₁ : EnvState} {acc₁ : StepResult} {np₁ : Nat}
    {seen : List AgentKey} {bs0 : List BattleKey}
    (h : processMsg cfg aid s acc np m = .ok (s₁, acc₁, np₁))
    (hname : m.key.player ≠ "__env__")
    (hnotin : m.key ∉ seen)
    (hnd : (s.active_battles.map Prod.fst).Nodup)
    (hst : acc.states.map Prod.fst = seen)
    (hrw : acc.rewards.map Prod.fst = seen)
    (hte : acc.terminateds.map Prod.fst = seen)
    (htr : acc.truncateds.map Prod.fst = seen)
    (hin : List.Perm (acc.infos.map Prod.fst)
      (seen ++ bs0.map (fun b => AgentKey.mk b "__env__")))
    (hbs : ∀ b ∈ bs0, b ∉ s.active_battles.map Prod.fst)
    (hsp : ∀ k ∈ seen, k.player ≠ "__env__") :
    ∃ bsStep,
      acc₁.states.map Prod.fst = seen ++ [m.key] ∧
      acc₁.rewards.map Prod.fst = seen ++ [m.key] ∧
      acc₁.terminateds.map Prod.fst = seen ++ [m.key] ∧
      acc₁.truncateds.map Prod.fst = seen ++ [m.key] ∧
      List.Perm (acc₁.infos.map Prod.fst)
        ((seen ++ [m.key]) ++
          (bs0 ++ bsStep).map (fun b => AgentKey.mk b "__env__")) ∧
      (s₁.active_battles.map Prod.fst).Nodup ∧
      List.Perm (s.active_battles.map Prod.fst)
        (s₁.active_battles.map Prod.fst ++ bsStep) ∧
      (∀ b ∈ bs0 ++ bsStep, b ∉ s₁.active_battles.map Prod.fst) := by
  have hkey_notin_env : m.key ∉ bs0.map (fun b => AgentKey.mk b "__env__") := by
    intro hk
    obtain ⟨b, -, hb⟩ := List.mem_map.mp hk
    exact hname (by rw [← hb])
  have hinfos_none : dictGet acc.infos m.key = none := by
    rw [dictGet_none_iff]
    intro hk
    rcases List.mem_append.mp (hin.mem_iff.mp hk) with h' | h'
    · exact hnotin h'
    · exact hkey_notin_env h'
  have hst_none : dictGet acc.states m.key = none := by
    rw [dictGet_none_iff, hst]; exact hnotin
  have hrw_none : dictGet acc.rewards m.key = none := by
    rw [dictGet_none_iff, hrw]; exact hnotin
  have hte_none : dictGet acc.terminateds m.key = none := by
    rw [dictGet_none_iff, hte]; exact hnotin
  have htr_none : dictGet acc.truncateds m.key = none := by
    rw [dictGet_none_iff, htr]; exact hnotin
  have hperm_step : ∀ (env : List AgentKey),
      List.Perm (acc.infos.map Prod.fst)
        (seen ++ env) →
      List.Perm ((acc.infos.map Prod.fst) ++ [m.key])
        ((seen ++ [m.key]) ++ env) := by
    intro env hperm
    refine (hperm.append_right [m.key]).trans ?_
    exact perm_snoc_middle seen env m.key
  cases m with
  | agent w req st =>
    simp only [AgentMsg.key] at hname hnotin hkey_notin_env hinfos_none hst_none hrw_none hte_none htr_none hperm_step ⊢
    simp only [processMsg] at h
    split at h
    · exact absurd h (by simp)
    · split at h
      · simp only [Except.ok.injEq, Prod.mk.injEq] at h
        obtain ⟨h1, h2, -⟩ := h
        subst h1
        rw [← h2]
        dsimp only
        refine ⟨[], ?_, ?_, ?_, ?_, ?_, hnd, by simp, by simpa using hbs⟩
        · rw [dictInsert_keys_of_none _ hst_none, hst]
        · rw [dictInsert_keys_of_none _ hrw_none, hrw]
        · rw [dictInsert_keys_of_none _ hte_none, hte]
        · rw [dictInsert_keys_of_none _ htr_none, htr]
        · rw [dictInsert_keys_of_none _ hinfos_none]
          simpa using hperm_step _ hin
      · exact absurd h (by simp)
  | agent_final w req =>
    simp only [AgentMsg.key] at hname hnotin hkey_notin_env hinfos_none hst_none hrw_none hte_none htr_none hperm_step ⊢
    simp only [processMsg] at h
    split at h
    · exact absurd h (by simp)
    · rename_i b hb
      split at h
      · rename_i hmem
        split at h
        · -- the set became empty: the battle is popped and the env
          -- entry recorded
          rename_i hempty
          simp only [Except.ok.injEq, Prod.mk.injEq] at h
          obtain ⟨h1, h2, -⟩ := h
          subst h1
          rw [← h2]
          dsimp only
          have hbmem : BattleKey.mk w req.battle ∈
              s.active_battles.map Prod.fst := mem_keys_of_dictGet_some hb
          have henv_notin :
              dictGet (dictInsert acc.infos
                (AgentKey.mk ⟨w, req.battle⟩ req.name)
                (InfoEntry.step []
                  (match req.action with
                   | some a => aid a
                   | none => -1)))
                (AgentKey.mk ⟨w, req.battle⟩ "__env__") = none := by
            rw [dictGet_dictInsert_ne _
              (by intro hk; exact hname ((congrArg AgentKey.player hk)).symm
                : AgentKey.mk ⟨w, req.battle⟩ "__env__" ≠
                  AgentKey.mk ⟨w, req.battle⟩ req.name),
              dictGet_none_iff]
            intro hk
            rcases List.mem_append.mp (hin.mem_iff.mp hk) with h' | h'
            · exact hsp _ h' rfl
            · obtain ⟨b', hb', hkb⟩ := List.mem_map.mp h'
              have : b' = BattleKey.mk w req.battle :=
                congrArg AgentKey.battle hkb
              subst this
              exact hbs _ hb' hbmem
          refine ⟨[BattleKey.mk w req.battle], ?_, ?_, ?_, ?_, ?_, ?_, ?_, ?_⟩
          · rw [dictInsert_keys_of_none _ hst_none, hst]
          · rw [dictInsert_keys_of_none _ hrw_none, hrw]
          · rw [dictInsert_keys_of_none _ hte_none, hte]
          · rw [dictInsert_keys_of_none _ htr_none, htr]
          · rw [dictInsert_keys_of_none _ henv_notin,
              dictInsert_keys_of_none _ hinfos_none, List.map_append]
            refine ((hperm_step _ hin).append_right _).trans ?_
            rw [List.append_assoc]
            rfl
          · rw [dictErase_keys]
            exact hnd.filter _
          · rw [dictErase_keys, filter_ne_eq_erase _ _ hnd]
            refine (List.perm_cons_erase hbmem).trans ?_
            exact (List.perm_append_singleton _ _).symm
          · intro b' hb'
            rw [dictErase_keys]
            rcases List.mem_append.mp hb' with h' | h'
            · intro hmem'
              exact hbs _ h' (List.mem_of_mem_filter hmem')
            · have : b' = BattleKey.mk w req.battle := by simpa using h'
              subst this
              intro hmem'
              exact absurd (List.of_mem_filter hmem') (by simp)
        · -- players remain: the battle entry is updated in place
          rename_i hne
          simp only [Except.ok.injEq, Prod.mk.injEq] at h
          obtain ⟨h1, h2, -⟩ := h
          subst h1
          rw [← h2]
          dsimp only
          have hkeys_eq :
              (dictInsert s.active_battles (BattleKey.mk w req.battle)
                (ActiveBattle.mk b.outcome
                  (b.active_agents.erase req.name))).map Prod.fst =
              s.active_battles.map Prod.fst :=
            dictInsert_keys_of_some _ (by rw [hb]; simp)
          refine ⟨[], ?_, ?_, ?_, ?_, ?_, ?_, ?_, ?_⟩
          · rw [dictInsert_keys_of_none _ hst_none, hst]
          · rw [dictInsert_keys_of_none _ hrw_none, hrw]
          · rw [dictInsert_keys_of_none _ hte_none, hte]
          · rw [dictInsert_keys_of_none _ htr_none, htr]
          · rw [dictInsert_keys_of_none _ hinfos_none]
            simpa using hperm_step _ hin
          · rw [hkeys_eq]; exact hnd
          · rw [hkeys_eq]; simp
          · rw [hkeys_eq]; simpa using hbs
      · exact absurd h (by simp)

theorem drainLoop_keys (cfg : BattleEnvConfig) (aid : String → Int) :
    ∀ (msgs : List AgentMsg) (s : EnvState) (np : Nat) (seen : List AgentKey)
      (acc : StepResult) (bs0 : List BattleKey) (s' : EnvState)
      (rest : List AgentMsg) (acc' : StepResult),
      drainLoop cfg aid msgs s np seen acc = .ok (s', rest, acc') →
      (∀ m ∈ msgs, m.key.player ≠ "__env__") →
      (s.active_battles.map Prod.fst).Nodup →
      acc.states.map Prod.fst = seen →
      acc.rewards.map Prod.fst = seen →
      acc.terminateds.map Prod.fst = seen →
      acc.truncateds.map Prod.fst = seen →
      List.Perm (acc.infos.map Prod.fst)
        (seen ++ bs0.map (fun b => AgentKey.mk b "__env__")) →
      (∀ b ∈ bs0, b ∉ s.active_battles.map Prod.fst) →
      (∀ k ∈ seen, k.player ≠ "__env__") →
      seen.Nodup →
      ∃ ks bsNew,
        acc'.states.map Prod.fst = seen ++ ks ∧
        acc'.rewards.map Prod.fst = seen ++ ks ∧
        acc'.terminateds.map Prod.fst = seen ++ ks ∧
        acc'.truncateds.map Prod.fst = seen ++ ks ∧
        List.Perm (acc'.infos.map Prod.fst)
          ((seen ++ ks) ++
            (bs0 ++ bsNew).map (fun b => AgentKey.mk b "__env__")) ∧
        (s'.active_battles.map Prod.fst).Nodup ∧
        List.Perm (s.active_battles.map Prod.fst)
          (s'.active_battles.map Prod.fst ++ bsNew) ∧
        (seen ++ ks).Nodup := by
  intro msgs
  induction msgs with
  | nil =>
    intro s np seen acc bs0 s' rest acc' h hmsg hnd hst hrw hte htr hin hbs
      hsp hsn
    rw [drainLoop] at h
    split at h <;>
      simp only [Except.ok.injEq, Prod.mk.injEq] at h <;>
      obtain ⟨h1, -, h3⟩ := h <;> subst h1 <;> rw [← h3] <;>
      exact ⟨[], [], by simp [hst], by simp [hrw], by simp [hte],
        by simp [htr], by simpa using hin, hnd, by simp, by simpa using hsn⟩
  | cons m restm ih =>
    intro s np seen acc bs0 s' rest acc' h hmsg hnd hst hrw hte htr hin hbs
      hsp hsn
    rw [drainLoop] at h
    split at h
    · split at h
      · exact absurd h (by simp)
      · rename_i hdup
        split at h
        · exact absurd h (by simp)
        · rename_i s₁ acc₁ np₁ hpm
          obtain ⟨bsStep, k1, k2, k3, k4, k5, k6, k7, k8⟩ :=
            processMsg_keys cfg aid hpm (hmsg m (by simp)) hdup hnd hst hrw
              hte htr hin hbs hsp
          have hsn₁ : (seen ++ [m.key]).Nodup := by
            rw [List.nodup_append]
            refine ⟨hsn, List.nodup_singleton _, ?_⟩
            simp only [List.Disjoint, List.mem_singleton]
            intro a ha hak
            exact hdup (hak ▸ ha)
          have hsp₁ : ∀ k ∈ seen ++ [m.key], k.player ≠ "__env__" := by
            intro k hk
            rcases List.mem_append.mp hk with h' | h'
            · exact hsp k h'
            · rw [List.mem_singleton.mp h']
              exact hmsg m (by simp)
          obtain ⟨ks', bsNew', j1, j2, j3, j4, j5, j6, j7, j8⟩ :=
            ih _ _ _ _ _ _ _ _ h (fun m' hm' => hmsg m' (by simp [hm'])) k6
              k1 k2 k3 k4 k5 k8 hsp₁ hsn₁
          refine ⟨m.key :: ks', bsStep ++ bsNew', by simp [j1], by simp [j2],
            by simp [j3], by simp [j4], by simpa using j5, j6, ?_,
            by simpa using j8⟩
          refine k7.trans ((j7.append_right bsStep).trans ?_)
          rw [List.append_assoc]
          exact List.Perm.append_left _ List.perm_append_comm
    · simp only [Except.ok.injEq, Prod.mk.injEq] at h
      obtain ⟨h1, -, h3⟩ := h
      subst h1
      rw [← h3]
      exact ⟨[], [], by simp [hst], by simp [hrw], by simp [hte],
        by simp [htr], by simpa using hin, hnd, by simp, by simpa using hsn⟩

/-- C10: in every successful `step()` return, the `state`, `reward`,
`terminated` and `truncated` dicts carry exactly the same keys (one per
drained request, no duplicates), and the `info` dict carries that same
key list plus exactly one `"__env__"` entry for each battle removed
from active bookkeeping during the call. -/
theorem step_key_alignment (cfg : BattleEnvConfig) (aid : String → Int)
    (s : EnvState) (msgs : List AgentMsg) (s' : EnvState)
    (rest : List AgentMsg) (acc : StepResult) (d : Bool)
    (h : stepEnv cfg aid s msgs = .ok (s', rest, acc, d))
    (henv : ∀ m ∈ msgs, m.key.player ≠ "__env__")
    (hnd : (s.active_battles.map Prod.fst).Nodup) :
    acc.rewards.map Prod.fst = acc.states.map Prod.fst ∧
    acc.terminateds.map Prod.fst = acc.states.map Prod.fst ∧
    acc.truncateds.map Prod.fst = acc.states.map Prod.fst ∧
    (acc.states.map Prod.fst).Nodup ∧
    ∃ bs, List.Perm (s.active_battles.map Prod.fst)
        (s'.active_battles.map Prod.fst ++ bs) ∧
      List.Perm (acc.infos.map Prod.fst)
        (acc.states.map Prod.fst ++
          bs.map (fun b => AgentKey.mk b "__env__")) := by
  rw [stepEnv] at h
  cases hd : drainLoop cfg aid msgs s 0 [] StepResult.empty with
  | error e =>
    rw [hd] at h
    exact absurd h (by simp)
  | ok r =>
    obtain ⟨s₁, rest₁, acc₁⟩ := r
    rw [hd] at h
    dsimp only at h
    obtain ⟨ks, bsNew, j1, j2, j3, j4, j5, j6, j7, j8⟩ :=
      drainLoop_keys cfg aid msgs s 0 [] StepResult.empty [] s₁ rest₁ acc₁ hd
        henv hnd rfl rfl rfl rfl (by simp [StepResult.empty]) (by simp)
        (by simp) List.nodup_nil
    have hacc : acc₁ = acc := by
      split at h <;> simp only [Except.ok.injEq, Prod.mk.injEq] at h <;>
        exact h.2.2.1
    have hs'active : s'.active_battles = s₁.active_battles := by
      split at h <;> simp only [Except.ok.injEq, Prod.mk.injEq] at h
      · rw [← h.1]
      · rw [← h.1]
    subst hacc
    refine ⟨by rw [j2, j1], by rw [j3, j1], by rw [j4, j1],
      by rw [j1]; simpa using j8, bsNew, ?_, ?_⟩
    · rw [hs'active]
      simpa using j7
    · rw [j1]
      simpa using j5

/-- C10 witness: draining the lone final request of `exampleEnvOne` —
the four dicts share the single key `((0, "b"), "p1")` and the info dict
adds exactly the one `"__env__"` entry for the completed battle. -/
theorem step_key_alignment_witness :
    exampleFinalAcc.rewards.map Prod.fst =
      exampleFinalAcc.states.map Prod.fst ∧
    exampleFinalAcc.terminateds.map Prod.fst =
      exampleFinalAcc.states.map Prod.fst ∧
    exampleFinalAcc.truncateds.map Prod.fst =
      exampleFinalAcc.states.map Prod.fst ∧
    (exampleFinalAcc.states.map Prod.fst).Nodup ∧
    ∃ bs, List.Perm (exampleEnvOne.active_battles.map Prod.fst)
        ((EnvState.mk [] QueueTask.absent).active_battles.map Prod.fst ++
          bs) ∧
      List.Perm (exampleFinalAcc.infos.map Prod.fst)
        (exampleFinalAcc.states.map Prod.fst ++
          bs.map (fun b => AgentKey.mk b "__env__")) :=
  step_key_alignment ⟨2, 1⟩ (fun _ => -1) exampleEnvOne
    [.agent_final 0 (AgentFinalRequest.mk "b" "p1" none none (some true))]
    (EnvState.mk [] QueueTask.absent) [] exampleFinalAcc true rfl
    (by decide) (by decide)

end PSAI
